import Mathlib

/-!
Verification of the OBM (Object-Bit Mapper) bit-field library.

The development shallowly embeds `obm.py`: Python integers are `Int`
(arbitrary precision, two's-complement bitwise semantics), partitions and
records are structures, and fallible operations return `Except PyError`.
Bitwise `&` and `|` on Python ints are `Int.land` / `Int.lor`, whose
case-split definitions are exactly Python's two's-complement behaviour;
Python `>>` is `Int.shiftRight` (arithmetic shift, floor division by a
power of two) and Python `<<` is exact multiplication by a power of two.
-/

namespace Obm

/-- Global configuration switch, `Config.error_check_overflow` in `obm.py`. -/
structure Config where
  error_check_overflow : Bool
deriving DecidableEq

/-- The two kinds of errors the library raises: `OverflowError` from value
assignment or packing, and `ValueError` from a failed partition lookup.
Each carries the rendered message string. -/
inductive PyError where
  | overflow (msg : String)
  | valueError (msg : String)
deriving DecidableEq

/-- A partition of a bit field, `BitFieldPartition` in `obm.py`.  The
constructor takes `start_byte`, `start_bit`, `length` and an initial
`value`, and leaves `name` empty; the name is back-filled when a record
instance copies the template. -/
structure BitFieldPartition where
  name : String
  start_byte : Nat
  start_bit : Nat
  length : Nat
  value : Int
deriving DecidableEq

/-- The `mask` property: `(1 << length) - 1`. -/
def BitFieldPartition.mask (p : BitFieldPartition) : Nat :=
  (1 <<< p.length) - 1

/-- The `shift` property: `(start_byte * 8) + start_bit`. -/
def BitFieldPartition.shift (p : BitFieldPartition) : Nat :=
  (p.start_byte * 8) + p.start_bit

/-- One hexadecimal digit, uppercase, as in Python's `X` format code. -/
def hexDigit (n : Nat) : Char :=
  if n < 10 then Char.ofNat (48 + n) else Char.ofNat (55 + n)

/-- Uppercase hexadecimal digits of `n`, most significant first.  The
fuel argument (always at least the digit count) keeps the recursion
structural so that the kernel can evaluate it. -/
def hexDigitsAux : Nat → Nat → List Char
  | 0, _ => []
  | fuel + 1, n =>
    if n < 16 then [hexDigit n]
    else hexDigitsAux fuel (n / 16) ++ [hexDigit (n % 16)]

/-- Uppercase hexadecimal digits of `n`, most significant first. -/
def hexDigits (n : Nat) : List Char :=
  hexDigitsAux (n + 1) n

/-- Python's `"{:02X}".format(v)`: uppercase hex, zero-padded to a total
width of at least two characters; a sign, when present, counts towards
the width and precedes the padding. -/
def hexPad2 (v : Int) : String :=
  match v with
  | .ofNat n =>
    let ds := hexDigits n
    String.mk (List.replicate (2 - ds.length) '0' ++ ds)
  | .negSucc m =>
    let ds := hexDigits (m + 1)
    String.mk ('-' :: (List.replicate (1 - ds.length) '0' ++ ds))

/-- The message raised by the `value` setter on overflow:
`"{name}: More than {length} bits of data (0x{value:02X})"`. -/
def overflowMessage (name : String) (length : Nat) (v : Int) : String :=
  name ++ ": More than " ++ toString length ++ " bits of data (0x" ++ hexPad2 v ++ ")"

/-- The `value` property setter: raises `OverflowError` when checking is
enabled and `value >> length > 0`, otherwise stores the value verbatim. -/
def BitFieldPartition.setValue (p : BitFieldPartition) (cfg : Config) (v : Int) :
    Except PyError BitFieldPartition :=
  if cfg.error_check_overflow ∧ 0 < Int.shiftRight v p.length then
    .error (.overflow (overflowMessage p.name p.length v))
  else
    .ok { p with value := v }

/-- The `masked_value` property: `value & mask`. -/
def BitFieldPartition.masked_value (p : BitFieldPartition) : Int :=
  Int.land p.value (p.mask : Int)

/-- The `prefixed_name` property: `"{start_byte}.{start_bit}:{length} {name}"`. -/
def BitFieldPartition.prefixed_name (p : BitFieldPartition) : String :=
  toString p.start_byte ++ "." ++ toString p.start_bit ++ ":" ++
    toString p.length ++ " " ++ p.name

/-- The method `parse(data)`: stores `(data >> shift) & mask` directly into `_value`,
bypassing the setter and hence any overflow check. -/
def BitFieldPartition.parse (p : BitFieldPartition) (data : Int) : BitFieldPartition :=
  { p with value := Int.land (Int.shiftRight data p.shift) (p.mask : Int) }

/-- Python `v << n` on arbitrary-precision integers: exact multiplication
by `2 ^ n`. -/
def pyShl (v : Int) (n : Nat) : Int :=
  v * (2 : Int) ^ n

/-- A bit-field record, `BitField` in `obm.py`: a name, a byte width and
the instance-owned partition list. -/
structure BitField where
  name : String
  nbytes : Nat
  partitions : List BitFieldPartition
deriving DecidableEq

/-- Code-point comparison of character lists, the order Python's `sorted`
(and hence `dir`) uses on identifier strings. -/
def charListLe : List Char → List Char → Bool
  | [], _ => true
  | _ :: _, [] => false
  | a :: as, b :: bs =>
    if a.toNat < b.toNat then true
    else if b.toNat < a.toNat then false
    else charListLe as bs

/-- Code-point lexicographic `≤` on strings. -/
def strLe (a b : String) : Bool :=
  charListLe a.data b.data

/-- Insert one named template into a name-sorted list of named templates. -/
def insertByName (x : String × BitFieldPartition) :
    List (String × BitFieldPartition) → List (String × BitFieldPartition)
  | [] => [x]
  | y :: ys => if strLe x.1 y.1 then x :: y :: ys else y :: insertByName x ys

/-- Sort named templates by name.  `BitField.__init__` discovers the
partition templates with `for name in dir(self)`, and Python's `dir`
returns attribute names in sorted order, so the instance's partition
list is ordered by attribute name, not by declaration order. -/
def sortByName : List (String × BitFieldPartition) → List (String × BitFieldPartition)
  | [] => []
  | x :: xs => insertByName x (sortByName xs)

/-- Construction, `BitField.__init__`: given the record name, the byte width and the
declared `(attribute name, template)` bindings in declaration order, the
constructor walks `dir(self)` (sorted attribute names), deep-copies each
`BitFieldPartition` template and back-fills its `name`. -/
def mkBitField (name : String) (nbytes : Nat)
    (decls : List (String × BitFieldPartition)) : BitField :=
  { name := name
    nbytes := nbytes
    partitions := (sortByName decls).map (fun d => { d.2 with name := d.1 }) }

/-- The `nbits` property: `nbytes * 8`. -/
def BitField.nbits (bf : BitField) : Nat :=
  bf.nbytes * 8

/-- The `mask` property of the record: `(1 << nbits) - 1`. -/
def BitField.mask (bf : BitField) : Nat :=
  (1 <<< bf.nbits) - 1

/-- The accumulation loop inside `data_int`: starting from `0x0`, OR in
`masked_value << shift` for every partition in list order. -/
def BitField.raw_data (bf : BitField) : Int :=
  bf.partitions.foldl (fun data p => Int.lor data (pyShl p.masked_value p.shift)) 0x0

/-- The `data_int` property: aggregates all partitions, raises `OverflowError`
when checking is enabled and the accumulated value needs more than
`nbits` bits, and returns the accumulator truncated to `nbits` bits. -/
def BitField.data_int (bf : BitField) (cfg : Config) : Except PyError Int :=
  if cfg.error_check_overflow ∧ 0 < Int.shiftRight bf.raw_data bf.nbits then
    .error (.overflow (bf.name ++ ": More than " ++ toString bf.nbits ++ " bits of data"))
  else
    .ok (Int.land bf.raw_data (bf.mask : Int))

/-- The `data_ints` property: `[(data_int >> (i * 8)) & 0xFF for i in range(0, nbytes)]`. -/
def BitField.data_ints (bf : BitField) (cfg : Config) : Except PyError (List Int) :=
  (bf.data_int cfg).map (fun data =>
    (List.range bf.nbytes).map (fun i => Int.land (Int.shiftRight data (i * 8)) 0xFF))

/-- The method `parse_data_int(data)`: every partition parses the same raw integer. -/
def BitField.parse_data_int (bf : BitField) (data : Int) : BitField :=
  { bf with partitions := bf.partitions.map (fun p => p.parse data) }

/-- The method `partition(name)`: the first partition whose name matches, or a
`ValueError` when none does. -/
def BitField.partition (bf : BitField) (pname : String) : Except PyError BitFieldPartition :=
  match bf.partitions.find? (fun p => p.name == pname) with
  | some p => .ok p
  | none => .error (.valueError ("Partition " ++ pname ++ " not found"))

/-- The method `partition_map(prefix)`: recomputes `data_int` once and maps each
partition's (possibly prefixed) name to `(data_int >> shift) & mask`.
The Python dict is modelled as the association list in partition order;
attribute names are unique on a record, so no key collapsing occurs. -/
def BitField.partition_map (bf : BitField) (cfg : Config) (prefixed : Bool) :
    Except PyError (List (String × Int)) :=
  (bf.data_int cfg).map (fun data =>
    bf.partitions.map (fun p =>
      ((if prefixed then p.prefixed_name else p.name),
        Int.land (Int.shiftRight data p.shift) (p.mask : Int))))

/-- Assignment `record.<attr>.value = v` through the instance attribute:
the attribute and the list entry are the same object in Python, so the
update is visible in `partitions`. -/
def BitField.setNamed (bf : BitField) (cfg : Config) (pname : String) (v : Int) :
    Except PyError BitField := do
  let p ← bf.partition pname
  let q ← p.setValue cfg v
  pure { bf with partitions := bf.partitions.map (fun r => if r.name = pname then q else r) }

/-- The classes of `obm.py` and Python's metaclass `type`, for modelling
the abstract-base guard in `BitField.__init__`. -/
inductive PyClass where
  | type
  | bitField
  | int8BitField
  | int16BitField
  | int32BitField
  | int64BitField
  | int128BitField
  | extendedJoystickMessage
deriving DecidableEq

/-- Python `c.__class__` for every class object involved: each of these
classes is an instance of the metaclass `type` (and `type` is its own
class). -/
def pyClassOf : PyClass → PyClass :=
  fun _ => PyClass.type

/-- The condition guarding `raise NotImplementedError()` in
`BitField.__init__`: `self.__class__ == BitField.__class__`.  For an
instance under construction `self.__class__` is the instance's concrete
class, while `BitField.__class__` is the metaclass `type`. -/
def bitFieldInitGuard (selfClass : PyClass) : Bool :=
  selfClass == pyClassOf PyClass.bitField

/-- The strict configuration, the library default. -/
def strictConfig : Config :=
  ⟨true⟩

/-- The partition templates of `ExtendedJoystickMessage` from `test.py`,
listed in declaration order as `(attribute name, template)`. -/
def ejmDecls : List (String × BitFieldPartition) :=
  [ ("a1NeutralPositionStatus", ⟨"", 0, 0, 2, 0⟩)
  , ("a1NegativePositionStatus", ⟨"", 0, 2, 2, 0⟩)
  , ("a1PositivePositionStatus", ⟨"", 0, 4, 2, 0⟩)
  , ("a1Position", ⟨"", 0, 6, 10, 0⟩)
  , ("a2NeutralPositionStatus", ⟨"", 2, 0, 2, 0⟩)
  , ("a2NegativePositionStatus", ⟨"", 2, 2, 2, 0⟩)
  , ("a2PositivePositionStatus", ⟨"", 2, 4, 2, 0⟩)
  , ("a2Position", ⟨"", 2, 6, 10, 0⟩)
  , ("a3NeutralPositionStatus", ⟨"", 4, 0, 2, 0⟩)
  , ("a3NegativePositionStatus", ⟨"", 4, 2, 2, 0⟩)
  , ("a3PositivePositionStatus", ⟨"", 4, 4, 2, 0⟩)
  , ("a3Position", ⟨"", 4, 6, 10, 0⟩)
  , ("axisPadding", ⟨"", 6, 0, 2, 0⟩)
  , ("a3DetentPositionStatus", ⟨"", 6, 2, 2, 0⟩)
  , ("a2DetentPositionStatus", ⟨"", 6, 4, 2, 0⟩)
  , ("a1DetentPositionStatus", ⟨"", 6, 6, 2, 0⟩)
  , ("b4", ⟨"", 7, 0, 2, 0⟩)
  , ("b3", ⟨"", 7, 2, 2, 0⟩)
  , ("b2", ⟨"", 7, 4, 2, 0⟩)
  , ("b1", ⟨"", 7, 6, 2, 0⟩) ]

/-- A freshly constructed `ExtendedJoystickMessage()` instance. -/
def ejm : BitField :=
  mkBitField "ExtendedJoystickMessage" 8 ejmDecls

/-- The twenty assignments performed by `BitFieldTestCase.testData`, in
declaration order. -/
def ejmAssignments : List (String × Int) :=
  [ ("a1NeutralPositionStatus", 0x1)
  , ("a1NegativePositionStatus", 0x0)
  , ("a1PositivePositionStatus", 0x0)
  , ("a1Position", 0x2AA)
  , ("a2NeutralPositionStatus", 0x3)
  , ("a2NegativePositionStatus", 0x3)
  , ("a2PositivePositionStatus", 0x3)
  , ("a2Position", 0x3FF)
  , ("a3NeutralPositionStatus", 0x3)
  , ("a3NegativePositionStatus", 0x3)
  , ("a3PositivePositionStatus", 0x3)
  , ("a3Position", 0x3FF)
  , ("axisPadding", 0x3)
  , ("a3DetentPositionStatus", 0x3)
  , ("a2DetentPositionStatus", 0x3)
  , ("a1DetentPositionStatus", 0x3)
  , ("b4", 0x3)
  , ("b3", 0x1)
  , ("b2", 0x0)
  , ("b1", 0x1) ]

/-- The joystick record after all twenty assignments. -/
def ejmFilled : Except PyError BitField :=
  ejmAssignments.foldlM (fun bf nv => bf.setNamed strictConfig nv.1 nv.2) ejm

/-- The attribute names of `ExtendedJoystickMessage` in declaration order. -/
def ejmDeclaredNames : List String :=
  ejmDecls.map (fun d => d.1)

/-- The masked value as a natural number; `masked_value` is never
negative because the mask is. -/
def natMasked (p : BitFieldPartition) : Nat :=
  p.masked_value.toNat

/-- The record aggregate at the `Nat` level: OR of `masked_value << shift`
over the partition list. -/
def natPack (l : List BitFieldPartition) : Nat :=
  (l.map (fun p => natMasked p <<< p.shift)).foldl (fun x y => x ||| y) 0

/-- Bit position `j` lies inside partition `p`'s declared range. -/
def inRange (p : BitFieldPartition) (j : Nat) : Prop :=
  p.shift ≤ j ∧ j < p.shift + p.length

/-- Two partitions occupy disjoint bit ranges. -/
def rangesDisjoint (p q : BitFieldPartition) : Prop :=
  p.shift + p.length ≤ q.shift ∨ q.shift + q.length ≤ p.shift

/-- Little-endian reassembly of a byte list: byte 0 is least significant. -/
def leReassemble (l : List Int) : Int :=
  l.foldr (fun b acc => b + 256 * acc) 0

/-- Propositional equality of `Except` results is decidable whenever both
component types have decidable equality; used to evaluate the library's
fallible operations on concrete inputs. -/
instance {ε α : Type} [DecidableEq ε] [DecidableEq α] : DecidableEq (Except ε α) := fun
  | .ok a, .ok b =>
    if h : a = b then isTrue (by rw [h]) else isFalse (by intro he; cases he; exact h rfl)
  | .ok _, .error _ => isFalse (by intro h; cases h)
  | .error _, .ok _ => isFalse (by intro h; cases h)
  | .error e, .error f =>
    if h : e = f then isTrue (by rw [h]) else isFalse (by intro he; cases he; exact h rfl)

/-- Disjointness of partition ranges is decidable. -/
instance rangesDisjointDec : DecidableRel rangesDisjoint :=
  fun p q =>
    inferInstanceAs (Decidable (p.shift + p.length ≤ q.shift ∨ q.shift + q.length ≤ p.shift))

/-- A two-partition one-byte record used to instantiate the general
theorems on concrete data: bits 0-3 hold 5, bits 4-7 hold 9. -/
def sampleRecord : BitField :=
  { name := "Sample"
    nbytes := 1
    partitions :=
      [ { name := "lo", start_byte := 0, start_bit := 0, length := 4, value := 5 }
      , { name := "hi", start_byte := 0, start_bit := 4, length := 4, value := 9 } ] }

end Obm

namespace Obm

theorem lor_ofNat (a b : Nat) : Int.lor (Int.ofNat a) (Int.ofNat b) = Int.ofNat (a ||| b) := rfl

theorem land_ofNat (a b : Nat) : Int.land (Int.ofNat a) (Int.ofNat b) = Int.ofNat (a &&& b) := rfl

theorem land_negSucc_ofNat (a b : Nat) :
    Int.land (Int.negSucc a) (Int.ofNat b) = Int.ofNat (Nat.ldiff b a) := rfl

theorem shiftRight_ofNat (a n : Nat) :
    Int.shiftRight (Int.ofNat a) n = Int.ofNat (a >>> n) := rfl

theorem shiftRight_negSucc (a n : Nat) :
    Int.shiftRight (Int.negSucc a) n = Int.negSucc (a >>> n) := rfl

theorem pyShl_ofNat (a n : Nat) : pyShl (Int.ofNat a) n = Int.ofNat (a <<< n) := by
  show (Int.ofNat a) * (2 : Int) ^ n = Int.ofNat (a <<< n)
  rw [Nat.shiftLeft_eq, Int.ofNat_eq_natCast, Int.ofNat_eq_natCast]
  push_cast
  ring

theorem mask_eq (p : BitFieldPartition) : p.mask = 2 ^ p.length - 1 := by
  simp [BitFieldPartition.mask, Nat.shiftLeft_eq]

theorem bf_mask_eq (bf : BitField) : bf.mask = 2 ^ bf.nbits - 1 := by
  simp [BitField.mask, Nat.shiftLeft_eq]

theorem ldiff_le (m a : Nat) : Nat.ldiff m a ≤ m := by
  have h : Nat.ldiff m a &&& m = Nat.ldiff m a := by
    apply Nat.eq_of_testBit_eq
    intro i
    simp [Nat.testBit_ldiff, Nat.testBit_and]
    intro h1 h2
    exact h1
  calc Nat.ldiff m a = Nat.ldiff m a &&& m := h.symm
    _ ≤ m := Nat.and_le_right

theorem masked_value_eq_ofNat (p : BitFieldPartition) :
    p.masked_value = Int.ofNat (natMasked p) := by
  unfold natMasked BitFieldPartition.masked_value
  cases hv : p.value with
  | ofNat a => rw [show ((p.mask : Nat) : Int) = Int.ofNat p.mask from rfl, land_ofNat]; rfl
  | negSucc a => rw [show ((p.mask : Nat) : Int) = Int.ofNat p.mask from rfl, land_negSucc_ofNat]; rfl

theorem natMasked_le_mask (p : BitFieldPartition) : natMasked p ≤ p.mask := by
  unfold natMasked BitFieldPartition.masked_value
  cases hv : p.value with
  | ofNat a =>
    rw [show ((p.mask : Nat) : Int) = Int.ofNat p.mask from rfl, land_ofNat]
    exact Nat.and_le_right
  | negSucc a =>
    rw [show ((p.mask : Nat) : Int) = Int.ofNat p.mask from rfl, land_negSucc_ofNat]
    exact ldiff_le p.mask a

theorem natMasked_lt_two_pow (p : BitFieldPartition) : natMasked p < 2 ^ p.length := by
  have h1 := natMasked_le_mask p
  rw [mask_eq] at h1
  have h2 : 0 < 2 ^ p.length := Nat.two_pow_pos p.length
  omega

end Obm

namespace Obm

theorem foldl_lor_Int (l : List BitFieldPartition) (r : Nat) :
    l.foldl (fun data p => Int.lor data (pyShl p.masked_value p.shift)) (Int.ofNat r) =
      Int.ofNat ((l.map (fun p => natMasked p <<< p.shift)).foldl (fun x y => x ||| y) r) := by
  induction l generalizing r with
  | nil => rfl
  | cons p t ih =>
    simp only [List.foldl_cons, List.map_cons]
    rw [masked_value_eq_ofNat, pyShl_ofNat, lor_ofNat, ih]

theorem raw_data_eq (bf : BitField) : bf.raw_data = Int.ofNat (natPack bf.partitions) := by
  unfold BitField.raw_data natPack
  exact foldl_lor_Int bf.partitions 0

theorem foldl_or_testBit (l : List Nat) (r j : Nat) :
    (l.foldl (fun x y => x ||| y) r).testBit j = (r.testBit j || l.any (fun x => x.testBit j)) := by
  induction l generalizing r with
  | nil => simp
  | cons x t ih => simp [List.foldl_cons, ih, Nat.testBit_or, Bool.or_assoc]

theorem map_any_testBit (l : List BitFieldPartition) (j : Nat) :
    (l.map (fun p => natMasked p <<< p.shift)).any (fun x => x.testBit j) =
      l.any (fun p => decide (p.shift ≤ j) && (natMasked p).testBit (j - p.shift)) := by
  induction l with
  | nil => rfl
  | cons p t ih => simp [Nat.testBit_shiftLeft, ge_iff_le, ih]

theorem natPack_testBit (l : List BitFieldPartition) (j : Nat) :
    (natPack l).testBit j =
      l.any (fun p => decide (p.shift ≤ j) && (natMasked p).testBit (j - p.shift)) := by
  unfold natPack
  rw [foldl_or_testBit, map_any_testBit]
  simp

theorem covered_of_testBit (l : List BitFieldPartition) (j : Nat)
    (h : (natPack l).testBit j = true) : ∃ p ∈ l, inRange p j := by
  rw [natPack_testBit, List.any_eq_true] at h
  obtain ⟨p, hp, hcond⟩ := h
  rw [Bool.and_eq_true, decide_eq_true_iff] at hcond
  obtain ⟨hs, hbit⟩ := hcond
  refine ⟨p, hp, hs, ?_⟩
  by_contra hlt
  have hfalse : (natMasked p).testBit (j - p.shift) = false := by
    apply Nat.testBit_lt_two_pow
    calc natMasked p < 2 ^ p.length := natMasked_lt_two_pow p
      _ ≤ 2 ^ (j - p.shift) := Nat.pow_le_pow_right (by omega) (by omega)
  rw [hfalse] at hbit
  cases hbit

theorem parse_start_byte (p : BitFieldPartition) (d : Int) :
    (p.parse d).start_byte = p.start_byte := rfl

theorem parse_shift (p : BitFieldPartition) (d : Int) : (p.parse d).shift = p.shift := rfl

theorem parse_length (p : BitFieldPartition) (d : Int) : (p.parse d).length = p.length := rfl

theorem and_mask_idem (x m : Nat) : (x &&& m) &&& m = x &&& m := by
  apply Nat.eq_of_testBit_eq
  intro i
  simp [Nat.testBit_and, Bool.and_assoc]

theorem natMasked_parse (p : BitFieldPartition) (D : Nat) :
    natMasked (p.parse (Int.ofNat D)) = (D >>> p.shift) &&& (2 ^ p.length - 1) := by
  unfold natMasked BitFieldPartition.masked_value BitFieldPartition.parse
  simp only []
  rw [show (((BitFieldPartition.mk p.name p.start_byte p.start_bit p.length
      (Int.land (Int.shiftRight (Int.ofNat D) p.shift) (p.mask : Int))).mask : Nat) : Int) =
      Int.ofNat p.mask from rfl]
  rw [show ((p.mask : Nat) : Int) = Int.ofNat p.mask from rfl]
  rw [shiftRight_ofNat, land_ofNat, land_ofNat]
  rw [show (Int.ofNat ((D >>> p.shift &&& p.mask) &&& p.mask)).toNat =
      (D >>> p.shift &&& p.mask) &&& p.mask from rfl]
  rw [and_mask_idem, mask_eq]

theorem natPack_parse_eq (l : List BitFieldPartition) (D : Nat)
    (hcov : ∀ j, D.testBit j = true → ∃ p ∈ l, inRange p j) :
    natPack (l.map (fun p => p.parse (Int.ofNat D))) = D := by
  apply Nat.eq_of_testBit_eq
  intro j
  rw [natPack_testBit, List.any_map]
  cases hD : D.testBit j with
  | true =>
    obtain ⟨p, hp, hs, hlt⟩ := hcov j hD
    rw [List.any_eq_true]
    refine ⟨p, hp, ?_⟩
    simp only [Function.comp, parse_shift, natMasked_parse]
    rw [Nat.testBit_and, Nat.testBit_shiftRight]
    have hj : p.shift + (j - p.shift) = j := by omega
    rw [hj, hD]
    simp [Nat.testBit_two_pow_sub_one]
    constructor
    · exact hs
    · omega
  | false =>
    rw [List.any_eq_false]
    intro p hp
    simp only [Function.comp, parse_shift, natMasked_parse]
    rw [Nat.testBit_and, Nat.testBit_shiftRight]
    simp
    intro hs
    have hj : p.shift + (j - p.shift) = j := by omega
    rw [hj, hD]
    simp

end Obm

namespace Obm

theorem data_int_ok_val (bf : BitField) (cfg : Config) (d : Int)
    (h : bf.data_int cfg = .ok d) :
    d = Int.ofNat (natPack bf.partitions % 2 ^ bf.nbits) := by
  unfold BitField.data_int at h
  split at h
  · cases h
  · injection h with h
    subst h
    rw [raw_data_eq, show ((bf.mask : Nat) : Int) = Int.ofNat bf.mask from rfl,
      land_ofNat, bf_mask_eq, Nat.and_pow_two_sub_one_eq_mod]

theorem parse_data_int_partitions (bf : BitField) (d : Int) :
    (bf.parse_data_int d).partitions = bf.partitions.map (fun p => p.parse d) := rfl

theorem parse_data_int_nbits (bf : BitField) (d : Int) :
    (bf.parse_data_int d).nbits = bf.nbits := rfl

/-- C1 core statement, to be reused: packing, unpacking and packing again
is the identity on the packed integer. -/
theorem roundtrip_core (cfg : Config) (bf : BitField) (d : Int)
    (hpack : bf.data_int cfg = .ok d) :
    (bf.parse_data_int d).data_int cfg = .ok d := by
  have hd := data_int_ok_val bf cfg d hpack
  set D := natPack bf.partitions % 2 ^ bf.nbits with hD
  have hD_lt : D < 2 ^ bf.nbits := Nat.mod_lt _ (Nat.two_pow_pos _)
  have hcov : ∀ j, D.testBit j = true → ∃ p ∈ bf.partitions, inRange p j := by
    intro j hj
    rw [hD, Nat.testBit_mod_two_pow, Bool.and_eq_true] at hj
    exact covered_of_testBit _ _ hj.2
  have hpackD : natPack ((bf.parse_data_int d).partitions) = D := by
    rw [parse_data_int_partitions, hd]
    exact natPack_parse_eq _ _ hcov
  have hraw : (bf.parse_data_int d).raw_data = Int.ofNat D := by
    rw [raw_data_eq, hpackD]
  unfold BitField.data_int
  rw [hraw, parse_data_int_nbits]
  have hzero : D >>> bf.nbits = 0 := by
    rw [Nat.shiftRight_eq_div_pow]
    exact Nat.div_eq_of_lt hD_lt
  rw [if_neg]
  · have hmask : (((bf.parse_data_int d).mask : Nat) : Int) = Int.ofNat bf.mask := rfl
    rw [hmask, land_ofNat, bf_mask_eq, Nat.and_pow_two_sub_one_eq_mod,
      Nat.mod_eq_of_lt hD_lt, hd]
  · rintro ⟨-, hlt⟩
    rw [shiftRight_ofNat, hzero] at hlt
    exact absurd hlt (by decide)

end Obm

namespace Obm

theorem bytes_reassemble_nat (k : Nat) : ∀ n : Nat,
    ((List.range k).map (fun i => (n >>> (i * 8)) &&& 255)).foldr
      (fun b acc => b + 256 * acc) 0 = n % 256 ^ k := by
  induction k with
  | zero => intro n; simp [Nat.mod_one]
  | succ k ih =>
    intro n
    rw [List.range_succ_eq_map]
    simp only [List.map_cons, List.map_map, List.foldr_cons, Function.comp_def]
    have h0 : (n >>> (0 * 8)) &&& 255 = n % 256 := by
      rw [show (255 : Nat) = 2 ^ 8 - 1 by norm_num, Nat.and_pow_two_sub_one_eq_mod]
      norm_num
    have hsucc : ((List.range k).map (fun i => (n >>> (Nat.succ i * 8)) &&& 255)) =
        (List.range k).map (fun i => ((n >>> 8) >>> (i * 8)) &&& 255) := by
      apply List.map_congr_left
      intro i _
      rw [show Nat.succ i * 8 = 8 + i * 8 by omega, Nat.shiftRight_add]
    rw [h0, hsucc, ih (n >>> 8)]
    have hdiv : n >>> 8 = n / 256 := by
      rw [Nat.shiftRight_eq_div_pow]
    rw [hdiv, show (256 : Nat) ^ (k + 1) = 256 * 256 ^ k by ring, Nat.mod_mul]

theorem leReassemble_ofNat (lN : List Nat) :
    leReassemble (lN.map (fun x => Int.ofNat x)) =
      Int.ofNat (lN.foldr (fun b acc => b + 256 * acc) 0) := by
  induction lN with
  | nil => rfl
  | cons b t ih =>
    unfold leReassemble at *
    simp only [List.map_cons, List.foldr_cons, ih]
    rw [Int.ofNat_eq_natCast, Int.ofNat_eq_natCast, Int.ofNat_eq_natCast]
    push_cast
    ring

theorem natPack_extract (l : List BitFieldPartition) (N : Nat) (p0 : BitFieldPartition)
    (hmem : p0 ∈ l)
    (hfit : ∀ p ∈ l, p.shift + p.length ≤ N)
    (hdisj : l.Pairwise rangesDisjoint) :
    ((natPack l % 2 ^ N) >>> p0.shift) &&& (2 ^ p0.length - 1) = natMasked p0 := by
  have hsymm : Symmetric rangesDisjoint := fun a b h => Or.symm h
  have hforall : ∀ q ∈ l, q ≠ p0 → rangesDisjoint q p0 := by
    intro q hq hne
    exact hdisj.forall hsymm hq hmem hne
  apply Nat.eq_of_testBit_eq
  intro k
  rw [Nat.testBit_and, Nat.testBit_shiftRight, Nat.testBit_mod_two_pow,
    Nat.testBit_two_pow_sub_one]
  by_cases hk : k < p0.length
  · have hN : p0.shift + k < N := by
      have := hfit p0 hmem
      omega
    have e1 : decide (p0.shift + k < N) = true := decide_eq_true hN
    have e2 : decide (k < p0.length) = true := decide_eq_true hk
    rw [e1, e2, Bool.true_and, Bool.and_true, natPack_testBit]
    cases hb : (natMasked p0).testBit k with
    | true =>
      rw [List.any_eq_true]
      refine ⟨p0, hmem, ?_⟩
      have hle : p0.shift ≤ p0.shift + k := by omega
      have hsub : p0.shift + k - p0.shift = k := by omega
      simp [hle, hsub, hb]
    | false =>
      rw [List.any_eq_false]
      intro q hq
      simp only [Bool.and_eq_true, decide_eq_true_iff, not_and]
      intro hle hbit
      have hlen : p0.shift + k - q.shift < q.length := by
        by_contra hge
        have : (natMasked q).testBit (p0.shift + k - q.shift) = false := by
          apply Nat.testBit_lt_two_pow
          calc natMasked q < 2 ^ q.length := natMasked_lt_two_pow q
            _ ≤ 2 ^ (p0.shift + k - q.shift) := Nat.pow_le_pow_right (by omega) (by omega)
        rw [this] at hbit
        cases hbit
      by_cases hqe : q = p0
      · subst hqe
        have hsub : q.shift + k - q.shift = k := by omega
        rw [hsub] at hbit
        rw [hb] at hbit
        cases hbit
      · have hd := hforall q hq hqe
        unfold rangesDisjoint at hd
        omega
  · have hfalse : (natMasked p0).testBit k = false := by
      apply Nat.testBit_lt_two_pow
      calc natMasked p0 < 2 ^ p0.length := natMasked_lt_two_pow p0
        _ ≤ 2 ^ k := Nat.pow_le_pow_right (by omega) (by omega)
    simp [hk, hfalse]

theorem find_name_of_nodup (l : List BitFieldPartition) (p : BitFieldPartition)
    (hnodup : (l.map (fun q => q.name)).Nodup) (hmem : p ∈ l) :
    l.find? (fun q => q.name == p.name) = some p := by
  induction l with
  | nil => cases hmem
  | cons r t ih =>
    rw [List.map_cons, List.nodup_cons] at hnodup
    obtain ⟨hr, ht⟩ := hnodup
    rcases List.mem_cons.mp hmem with hpr | hpt
    · subst hpr
      rw [List.find?_cons_of_pos]
      simp
    · have hne : (r.name == p.name) = false := by
        rw [beq_eq_false_iff_ne]
        intro he
        exact hr (he ▸ List.mem_map.mpr ⟨p, hpt, rfl⟩)
      rw [List.find?_cons_of_neg]
      · exact ih ht hpt
      · simp [hne]

end Obm

namespace Obm

theorem charListLe_total (a : List Char) : ∀ b : List Char,
    charListLe a b = true ∨ charListLe b a = true := by
  induction a with
  | nil => intro b; left; rfl
  | cons x xs ih =>
    intro b
    cases b with
    | nil => right; rfl
    | cons y ys =>
      unfold charListLe
      by_cases h1 : x.toNat < y.toNat
      · left; simp [h1]
      · by_cases h2 : y.toNat < x.toNat
        · right; simp [h2]
        · rcases ih ys with h | h
          · left; simp [h1, h2, h]
          · right; simp [h1, h2, h]

theorem charListLe_trans (a : List Char) : ∀ b c : List Char,
    charListLe a b = true → charListLe b c = true → charListLe a c = true := by
  induction a with
  | nil => intro b c _ _; rfl
  | cons x xs ih =>
    intro b c h1 h2
    cases b with
    | nil => cases h1
    | cons y ys =>
      cases c with
      | nil => cases h2
      | cons z zs =>
        unfold charListLe at h1 h2 ⊢
        by_cases exy : x.toNat < y.toNat
        · by_cases eyz : y.toNat < z.toNat
          · have hxz : x.toNat < z.toNat := by omega
            simp [hxz]
          · by_cases ezy : z.toNat < y.toNat
            · simp [eyz, ezy] at h2
            · have hxz : x.toNat < z.toNat := by omega
              simp [hxz]
        · by_cases eyx : y.toNat < x.toNat
          · simp [exy, eyx] at h1
          · simp [exy, eyx] at h1
            by_cases eyz : y.toNat < z.toNat
            · have hxz : x.toNat < z.toNat := by omega
              simp [hxz]
            · by_cases ezy : z.toNat < y.toNat
              · simp [eyz, ezy] at h2
              · simp [eyz, ezy] at h2
                have hxz : ¬ x.toNat < z.toNat := by omega
                have hzx : ¬ z.toNat < x.toNat := by omega
                simp [hxz, hzx]
                exact ih ys zs h1 h2

theorem strLe_total (a b : String) : strLe a b = true ∨ strLe b a = true :=
  charListLe_total a.data b.data

theorem strLe_trans (a b c : String) (h1 : strLe a b = true) (h2 : strLe b c = true) :
    strLe a c = true :=
  charListLe_trans a.data b.data c.data h1 h2

theorem insertByName_perm (x : String × BitFieldPartition)
    (l : List (String × BitFieldPartition)) : (insertByName x l).Perm (x :: l) := by
  induction l with
  | nil => exact List.Perm.refl _
  | cons y ys ih =>
    unfold insertByName
    split
    · exact List.Perm.refl _
    · exact (ih.cons y).trans (List.Perm.swap x y ys)

theorem sortByName_perm (l : List (String × BitFieldPartition)) :
    (sortByName l).Perm l := by
  induction l with
  | nil => exact List.Perm.refl _
  | cons x xs ih =>
    unfold sortByName
    exact (insertByName_perm x (sortByName xs)).trans (ih.cons x)

theorem insertByName_sorted (x : String × BitFieldPartition)
    (l : List (String × BitFieldPartition))
    (hl : l.Pairwise (fun d e => strLe d.1 e.1 = true)) :
    (insertByName x l).Pairwise (fun d e => strLe d.1 e.1 = true) := by
  induction l with
  | nil => simp [insertByName]
  | cons y ys ih =>
    rw [List.pairwise_cons] at hl
    obtain ⟨hy, hys⟩ := hl
    unfold insertByName
    split
    case isTrue h =>
      rw [List.pairwise_cons]
      refine ⟨?_, List.Pairwise.cons hy hys⟩
      intro z hz
      rcases List.mem_cons.mp hz with rfl | hz2
      · exact h
      · exact strLe_trans x.1 y.1 z.1 h (hy z hz2)
    case isFalse h =>
      rw [List.pairwise_cons]
      refine ⟨?_, ih hys⟩
      intro z hz
      have hz3 := (insertByName_perm x ys).mem_iff.mp hz
      rcases List.mem_cons.mp hz3 with rfl | hz4
      · rcases strLe_total z.1 y.1 with htot | htot
        · exact absurd htot h
        · exact htot
      · exact hy z hz4

theorem sortByName_sorted (l : List (String × BitFieldPartition)) :
    (sortByName l).Pairwise (fun d e => strLe d.1 e.1 = true) := by
  induction l with
  | nil => exact List.Pairwise.nil
  | cons x xs ih =>
    unfold sortByName
    exact insertByName_sorted x (sortByName xs) ih

end Obm

namespace Obm

theorem land_mask_bounds (v : Int) (m : Nat) :
    ∃ x : Nat, Int.land v (Int.ofNat m) = Int.ofNat x ∧ x ≤ m := by
  cases v with
  | ofNat a => exact ⟨a &&& m, land_ofNat a m, Nat.and_le_right⟩
  | negSucc a => exact ⟨Nat.ldiff m a, land_negSucc_ofNat a m, ldiff_le m a⟩

/-- C1: round-trip idempotence: for a record whose partitions each hold a
value within the partition's mask, a successful `data_int`, followed by
`parse_data_int` of that integer, followed by `data_int` again, yields
the same integer. -/
theorem claim_C1_roundtrip (cfg : Config) (bf : BitField) (d : Int)
    (_hvals : ∀ p ∈ bf.partitions, 0 ≤ p.value ∧ p.value ≤ (p.mask : Int))
    (hpack : bf.data_int cfg = .ok d) :
    (bf.parse_data_int d).data_int cfg = .ok d :=
  roundtrip_core cfg bf d hpack

theorem claim_C1_roundtrip_witness :
    (sampleRecord.parse_data_int 0x95).data_int strictConfig = Except.ok 0x95 :=
  claim_C1_roundtrip strictConfig sampleRecord 0x95 (by decide) (by decide)

/-- C2: the worked joystick scenario of `test.py`: the twenty assignments
in declaration order produce `data_int = 0x47FFFFFFFFFFAA81` and the
little-endian byte list, and parsing that integer back into a fresh
record reproduces the same `data_int`. -/
theorem claim_C2_joystick_scenario :
    (ejmFilled.bind (fun bf => bf.data_int strictConfig)) =
      Except.ok (0x47FFFFFFFFFFAA81 : Int) ∧
    (ejmFilled.bind (fun bf => bf.data_ints strictConfig)) =
      Except.ok ([0x81, 0xAA, 0xFF, 0xFF, 0xFF, 0xFF, 0xFF, 0x47] : List Int) ∧
    ((ejm.parse_data_int 0x47FFFFFFFFFFAA81).data_int strictConfig) =
      Except.ok (0x47FFFFFFFFFFAA81 : Int) :=
  ⟨by decide, by decide, by decide⟩

/-- C3 counterexample: the joystick record's partition list is not in
declaration order; its first entry is `a1DetentPositionStatus` although
`a1NeutralPositionStatus` was declared first. -/
theorem claim_C3_counterexample :
    (ejm.partitions.map (fun p => p.name)) ≠ ejmDeclaredNames ∧
    (ejm.partitions.map (fun p => p.name)).head? = some "a1DetentPositionStatus" ∧
    ejmDeclaredNames.head? = some "a1NeutralPositionStatus" :=
  ⟨by decide, by decide, by decide⟩

/-- C3 amended: for every concrete record type, the instance's partition
list holds the owned copies of the declared templates with names
back-filled, ordered by attribute name (Python `dir` order, code-point
lexicographic), as a permutation of the declaration list. -/
theorem claim_C3_amended (rname : String) (nb : Nat)
    (decls : List (String × BitFieldPartition)) :
    ((mkBitField rname nb decls).partitions.map (fun p => p.name)).Pairwise
      (fun a b => strLe a b = true) ∧
    (mkBitField rname nb decls).partitions.Perm
      (decls.map (fun d => { d.2 with name := d.1 })) := by
  constructor
  · show (((sortByName decls).map
        (fun d => ({ d.2 with name := d.1 } : BitFieldPartition))).map
        (fun p => p.name)).Pairwise (fun a b => strLe a b = true)
    rw [List.map_map]
    rw [List.pairwise_map]
    exact sortByName_sorted decls
  · exact (sortByName_perm decls).map _

/-- C4: the guard in `BitField.__init__` compares `self.__class__` with
`BitField.__class__`, that is with the metaclass `type`; the comparison
is false for every class in the module, in particular for `BitField`
itself, so instantiating the abstract base never raises. -/
theorem claim_C4_guard_never_fires :
    bitFieldInitGuard PyClass.bitField = false ∧
    ∀ c : PyClass, bitFieldInitGuard c = (c == PyClass.type) :=
  ⟨rfl, fun _ => rfl⟩

/-- C5: assigning `mask` to a partition never raises; assigning `mask + 1`
with checking enabled raises `OverflowError` carrying the partition's
name, bit length and the hex-formatted value; on the 2-bit partition
`b1` the value `0x4` produces exactly the message of `test.py`. -/
theorem claim_C5_overflow_boundary (cfg : Config) (p : BitFieldPartition) :
    p.setValue cfg (p.mask : Int) = .ok { p with value := (p.mask : Int) } ∧
    (cfg.error_check_overflow = true →
      p.setValue cfg ((p.mask : Int) + 1) =
        .error (.overflow (overflowMessage p.name p.length ((p.mask : Int) + 1)))) ∧
    (BitFieldPartition.mk "b1" 0 4 2 0).setValue ⟨true⟩ 0x4 =
      .error (.overflow "b1: More than 2 bits of data (0x04)") := by
  refine ⟨?_, ?_, by decide⟩
  · unfold BitFieldPartition.setValue
    rw [if_neg]
    rintro ⟨-, hlt⟩
    rw [show ((p.mask : Nat) : Int) = Int.ofNat p.mask from rfl, shiftRight_ofNat] at hlt
    have hz : p.mask >>> p.length = 0 := by
      rw [Nat.shiftRight_eq_div_pow, mask_eq]
      exact Nat.div_eq_of_lt (by have := Nat.two_pow_pos p.length; omega)
    rw [hz] at hlt
    exact absurd hlt (by decide)
  · intro hc
    unfold BitFieldPartition.setValue
    rw [if_pos]
    constructor
    · exact hc
    · have hcast : ((p.mask : Nat) : Int) + 1 = Int.ofNat (p.mask + 1) := by
        rw [Int.ofNat_eq_natCast]
        push_cast
        ring
      rw [hcast, shiftRight_ofNat]
      have hone : (p.mask + 1) >>> p.length = 1 := by
        rw [Nat.shiftRight_eq_div_pow, mask_eq,
          show 2 ^ p.length - 1 + 1 = 2 ^ p.length by
            have := Nat.two_pow_pos p.length; omega]
        exact Nat.div_self (Nat.two_pow_pos p.length)
      rw [hone]
      decide

theorem claim_C5_overflow_boundary_witness :
    (BitFieldPartition.mk "b1" 0 4 2 0).setValue ⟨true⟩
        (((BitFieldPartition.mk "b1" 0 4 2 0).mask : Int) + 1) =
      .error (.overflow (overflowMessage "b1" 2
        (((BitFieldPartition.mk "b1" 0 4 2 0).mask : Int) + 1))) :=
  (claim_C5_overflow_boundary ⟨true⟩ (BitFieldPartition.mk "b1" 0 4 2 0)).2.1 rfl

end Obm

namespace Obm

/-- C6: on a record whose packing succeeds, `data_ints` succeeds with
exactly `nbytes` entries, entry `i` being `(data_int >> (i*8)) & 0xFF`,
every entry within `[0, 255]`, and little-endian reassembly of the
entries reproduces `data_int`. -/
theorem claim_C6_data_ints (cfg : Config) (bf : BitField) (d : Int)
    (hpack : bf.data_int cfg = .ok d) :
    ∃ l, bf.data_ints cfg = .ok l ∧
      l.length = bf.nbytes ∧
      (∀ i, ∀ h : i < l.length, l.get ⟨i, h⟩ = Int.land (Int.shiftRight d (i * 8)) 0xFF) ∧
      (∀ b ∈ l, 0 ≤ b ∧ b ≤ 255) ∧
      leReassemble l = d := by
  refine ⟨(List.range bf.nbytes).map (fun i => Int.land (Int.shiftRight d (i * 8)) 0xFF),
    ?_, ?_, ?_, ?_, ?_⟩
  · unfold BitField.data_ints
    rw [hpack]
    rfl
  · simp
  · intro i h
    simp [List.get_eq_getElem, List.getElem_map, List.getElem_range]
  · intro b hb
    obtain ⟨i, hi, rfl⟩ := List.mem_map.mp hb
    have hd := data_int_ok_val bf cfg d hpack
    rw [hd, shiftRight_ofNat, show (0xFF : Int) = Int.ofNat 255 from rfl, land_ofNat]
    constructor
    · exact Int.ofNat_le.mpr (Nat.zero_le _)
    · show Int.ofNat _ ≤ (255 : Int)
      rw [show (255 : Int) = Int.ofNat 255 from rfl]
      exact Int.ofNat_le.mpr Nat.and_le_right
  · have hd := data_int_ok_val bf cfg d hpack
    set D := natPack bf.partitions % 2 ^ bf.nbits with hD
    have hDlt : D < 2 ^ bf.nbits := Nat.mod_lt _ (Nat.two_pow_pos _)
    have hmap : (List.range bf.nbytes).map (fun i => Int.land (Int.shiftRight d (i * 8)) 0xFF) =
        ((List.range bf.nbytes).map (fun i => (D >>> (i * 8)) &&& 255)).map
          (fun x => Int.ofNat x) := by
      rw [List.map_map]
      apply List.map_congr_left
      intro i _
      simp only [Function.comp_def]
      rw [hd, shiftRight_ofNat, show (0xFF : Int) = Int.ofNat 255 from rfl, land_ofNat]
    rw [hmap, leReassemble_ofNat, bytes_reassemble_nat]
    have h256 : (256 : Nat) ^ bf.nbytes = 2 ^ bf.nbits := by
      rw [show (256 : Nat) = 2 ^ 8 by norm_num, ← Nat.pow_mul, BitField.nbits, Nat.mul_comm]
    rw [h256, Nat.mod_eq_of_lt hDlt]
    exact hd.symm

theorem claim_C6_data_ints_witness :
    ∃ l, sampleRecord.data_ints strictConfig = .ok l ∧
      l.length = sampleRecord.nbytes ∧
      (∀ i, ∀ h : i < l.length, l.get ⟨i, h⟩ =
        Int.land (Int.shiftRight 0x95 (i * 8)) 0xFF) ∧
      (∀ b ∈ l, 0 ≤ b ∧ b ≤ 255) ∧
      leReassemble l = 0x95 :=
  claim_C6_data_ints strictConfig sampleRecord 0x95 (by decide)

/-- C7: `parse` always succeeds: it stores `(raw >> shift) & mask`, the
stored value lies within `[0, mask]`, re-assigning it through the
checked setter succeeds under any configuration, and `parse_data_int`
is exactly the partition-wise `parse` of the same raw integer. -/
theorem claim_C7_parse_total (p : BitFieldPartition) (data : Int) (cfg : Config)
    (bf : BitField) :
    (p.parse data).value = Int.land (Int.shiftRight data p.shift) (p.mask : Int) ∧
    0 ≤ (p.parse data).value ∧
    (p.parse data).value ≤ (p.mask : Int) ∧
    (p.parse data).setValue cfg ((p.parse data).value) = .ok (p.parse data) ∧
    (bf.parse_data_int data).partitions = bf.partitions.map (fun q => q.parse data) := by
  obtain ⟨x, hx, hxle⟩ := land_mask_bounds (Int.shiftRight data p.shift) p.mask
  have hval : (p.parse data).value = Int.ofNat x := hx
  refine ⟨rfl, ?_, ?_, ?_, rfl⟩
  · rw [hval]
    exact Int.ofNat_le.mpr (Nat.zero_le _)
  · rw [hval, show ((p.mask : Nat) : Int) = Int.ofNat p.mask from rfl]
    exact Int.ofNat_le.mpr hxle
  · unfold BitFieldPartition.setValue
    rw [if_neg]
    rintro ⟨-, hlt⟩
    have hlen : (p.parse data).length = p.length := rfl
    rw [hval, hlen, shiftRight_ofNat] at hlt
    have hz : x >>> p.length = 0 := by
      rw [Nat.shiftRight_eq_div_pow]
      apply Nat.div_eq_of_lt
      rw [mask_eq] at hxle
      have := Nat.two_pow_pos p.length
      omega
    rw [hz] at hlt
    exact absurd hlt (by decide)

/-- C8: on every record whose packing succeeds, `partition_map` maps each
partition name to the aggregate-consistent value `(data_int >> shift) & mask`
(overlapping partitions included); when additionally the partitions fit
inside the record, carry distinct names and occupy pairwise disjoint
ranges, every mapped value equals the looked-up partition's
`masked_value`. -/
theorem claim_C8_partition_map (cfg : Config) (bf : BitField) (d : Int)
    (hpack : bf.data_int cfg = .ok d) :
    bf.partition_map cfg false =
      .ok (bf.partitions.map (fun p =>
        (p.name, Int.land (Int.shiftRight d p.shift) (p.mask : Int)))) ∧
    ((∀ p ∈ bf.partitions, p.shift + p.length ≤ bf.nbits) →
      (bf.partitions.map (fun p => p.name)).Nodup →
      bf.partitions.Pairwise rangesDisjoint →
      ∀ p ∈ bf.partitions, ∃ q, bf.partition p.name = .ok q ∧
        Int.land (Int.shiftRight d p.shift) (p.mask : Int) = q.masked_value) := by
  constructor
  · unfold BitField.partition_map
    rw [hpack]
    rfl
  · intro hfit hnames hdisj p hp
    refine ⟨p, ?_, ?_⟩
    · unfold BitField.partition
      rw [find_name_of_nodup bf.partitions p hnames hp]
    · have hd := data_int_ok_val bf cfg d hpack
      rw [hd, shiftRight_ofNat, show ((p.mask : Nat) : Int) = Int.ofNat p.mask from rfl,
        land_ofNat, mask_eq, natPack_extract bf.partitions bf.nbits p hp hfit hdisj]
      exact (masked_value_eq_ofNat p).symm

theorem claim_C8_partition_map_witness :
    sampleRecord.partition_map strictConfig false =
      .ok (sampleRecord.partitions.map (fun p =>
        (p.name, Int.land (Int.shiftRight 0x95 p.shift) (p.mask : Int)))) ∧
    ∀ p ∈ sampleRecord.partitions, ∃ q, sampleRecord.partition p.name = .ok q ∧
      Int.land (Int.shiftRight 0x95 p.shift) (p.mask : Int) = q.masked_value :=
  ⟨(claim_C8_partition_map strictConfig sampleRecord 0x95 (by decide)).1,
    (claim_C8_partition_map strictConfig sampleRecord 0x95 (by decide)).2
      (by decide) (by decide) (by decide)⟩

/-- C9: `partition(name)` returns a partition of the record bearing the
requested name, and produces the not-found `ValueError` exactly when no
partition has that name; the lookup is a pure read. -/
theorem claim_C9_partition_lookup (bf : BitField) (s : String) :
    (∀ q, bf.partition s = .ok q → q ∈ bf.partitions ∧ q.name = s) ∧
    (bf.partition s = .error (.valueError ("Partition " ++ s ++ " not found")) ↔
      ∀ q ∈ bf.partitions, q.name ≠ s) := by
  constructor
  · intro q hq
    unfold BitField.partition at hq
    cases hfind : bf.partitions.find? (fun r => r.name == s) with
    | none => rw [hfind] at hq; cases hq
    | some r =>
      rw [hfind] at hq
      injection hq with hq
      subst hq
      refine ⟨List.mem_of_find?_eq_some hfind, ?_⟩
      have hbeq := List.find?_some hfind
      simpa using hbeq
  · unfold BitField.partition
    cases hfind : bf.partitions.find? (fun r => r.name == s) with
    | none =>
      constructor
      · intro _ q hq hname
        have hnone := List.find?_eq_none.mp hfind q hq
        simp [hname] at hnone
      · intro _
        rfl
    | some r =>
      constructor
      · intro h
        cases h
      · intro hall
        have hbeq := List.find?_some hfind
        have hmem := List.mem_of_find?_eq_some hfind
        have hname : r.name = s := by simpa using hbeq
        exact absurd hname (hall r hmem)

theorem claim_C9_partition_lookup_witness :
    ({ name := "lo", start_byte := 0, start_bit := 0, length := 4, value := 5 } :
      BitFieldPartition) ∈ sampleRecord.partitions ∧
    ({ name := "lo", start_byte := 0, start_bit := 0, length := 4, value := 5 } :
      BitFieldPartition).name = "lo" :=
  (claim_C9_partition_lookup sampleRecord "lo").1 _ (by decide)

/-- C10: a negative value always bypasses the overflow check: the setter
stores it verbatim under any configuration because the arithmetic right
shift of a negative integer stays negative, and `masked_value` then
reads `value & mask`. -/
theorem claim_C10_negative_bypass (cfg : Config) (p : BitFieldPartition) (v : Int)
    (hv : v < 0) :
    p.setValue cfg v = .ok { p with value := v } ∧
    Int.shiftRight v p.length < 0 ∧
    ({ p with value := v } : BitFieldPartition).masked_value = Int.land v (p.mask : Int) := by
  obtain ⟨m, rfl⟩ : ∃ m, v = Int.negSucc m := by
    cases v with
    | ofNat n =>
      have : (0 : Int) ≤ Int.ofNat n := Int.ofNat_le.mpr (Nat.zero_le _)
      omega
    | negSucc m => exact ⟨m, rfl⟩
  refine ⟨?_, ?_, rfl⟩
  · unfold BitFieldPartition.setValue
    rw [if_neg]
    rintro ⟨-, hlt⟩
    rw [shiftRight_negSucc] at hlt
    have := Int.negSucc_lt_zero (m >>> p.length)
    omega
  · rw [shiftRight_negSucc]
    exact Int.negSucc_lt_zero _

theorem claim_C10_negative_bypass_witness :
    (BitFieldPartition.mk "b1" 0 4 2 0).setValue ⟨true⟩ (-1) =
      .ok (BitFieldPartition.mk "b1" 0 4 2 (-1)) :=
  (claim_C10_negative_bypass ⟨true⟩ (BitFieldPartition.mk "b1" 0 4 2 0) (-1)
    (by decide)).1

end Obm
